import Mathlib

/-!
# Verification of `fastuot/numpy_berg.py`

Shallow embedding of the Berg-entropy unbalanced-Sinkhorn core
(`src/fastuot/numpy_berg.py`) over the reals.  Vectors are functions
`Fin n → ℝ`; every numpy operation used by the source is elementwise or a
plain sum, so arrays embed pointwise.  The helpers `sinkx`/`sinky` live in
`fastuot/numpy_sinkhorn.py`, which is not part of the sources; they are
modelled from the specification (§4.1) and treated as opaque by every
theorem below.
-/

namespace FastUOT

noncomputable section

/-! ## Lambert-W solver (`numpy_berg.py`, lines 9-37) -/

/-- Padé(3,2) approximant used inside `init_lambertw` (line 14-15):
`pade(u) = u(3 + 6u + u²)/(3 + 9u + 5u²)`. -/
def pade (u : ℝ) : ℝ :=
  u * (3 + 6 * u + u ^ 2) / (3 + 9 * u + 5 * u ^ 2)

/-- Embeds `init_lambertw` (lines 9-19), elementwise.  The three numpy masks
`x > 1`, `x < -2`, `-2 ≤ x ≤ 1` are disjoint and exhaustive, so the masked
assignments amount to this conditional; afterwards any exactly-zero entry is
replaced by `1e-6` (line 18). -/
def init_lambertw (x : ℝ) : ℝ :=
  let z0 : ℝ :=
    if x > 1 then x
    else if x < -2 then Real.exp x * (1 - Real.exp x)
    else pade (Real.exp x)
  if z0 = 0 then 1e-6 else z0

/-- Halley residual `a(w)` from `log_lambertw` (lines 25-26):
`a(w) = w(log(w + 1e-17) + w - x)/(1 + w)`. -/
def halley_a (x w : ℝ) : ℝ :=
  w * (Real.log (w + 1e-17) + w - x) / (1 + w)

/-- Halley curvature `b(w)` from `log_lambertw` (lines 28-29):
`b(w) = -1/(w(1 + w))`. -/
def halley_b (w : ℝ) : ℝ :=
  -1 / (w * (1 + w))

/-- One iteration of the `for i in range(5)` loop of `log_lambertw`
(lines 31-36): `w ← max(w - a/(1 - 0.5·a·b), 1e-17)`. -/
def halley_step (x w : ℝ) : ℝ :=
  max (w - halley_a x w / (1 - 0.5 * halley_a x w * halley_b w)) 1e-17

/-- Embeds `log_lambertw` (lines 22-37), elementwise: seed with `init_lambertw`,
then run the Halley loop for exactly five iterations. -/
def log_lambertw (x : ℝ) : ℝ :=
  (List.range 5).foldl (fun z _ => halley_step x z) (init_lambertw x)

/-- Vector form of `log_lambertw`, acting elementwise as the numpy
function does. -/
def log_lambertwV {n : ℕ} (x : Fin n → ℝ) : Fin n → ℝ :=
  fun i => log_lambertw (x i)

/-! ### Claim-side Lambert-W definitions (for the refinement comparison) -/

/-- The residual exactly as the specification words it:
`a(w) = w(log(w) + w - x)/(1 + w)` — note `log(w)`, without the `1e-17`
guard that the source adds inside the logarithm. -/
def halley_a_claim (x w : ℝ) : ℝ :=
  w * (Real.log w + w - x) / (1 + w)

/-- Seed written independently from the words of the claim: `z0 = x` where
`x > 1`; `z0 = e^x(1 - e^x)` where `x < -2`; `z0 = p(e^x)` on `[-2, 1]`
with `p(u) = u(3 + 6u + u²)/(3 + 9u + 5u²)`; zero entries become `1e-6`. -/
def seed_claim (x : ℝ) : ℝ :=
  let z : ℝ :=
    if 1 < x then x
    else if x < -2 then Real.exp x * (1 - Real.exp x)
    else Real.exp x * (3 + 6 * Real.exp x + Real.exp x ^ 2)
      / (3 + 9 * Real.exp x + 5 * Real.exp x ^ 2)
  if z = 0 then 1e-6 else z

/-- One Halley update written from the words of the amended claim, with the
residual `w(log(w + 1e-17) + w - x)/(1 + w)`, curvature `-1/(w(1 + w))`
and update `w ← max(w - a/(1 - 0.5·a·b), 1e-17)`. -/
def halley_update_claim (x w : ℝ) : ℝ :=
  let av := w * (Real.log (w + 1e-17) + w - x) / (1 + w)
  let bv := -1 / (w * (1 + w))
  max (w - av / (1 - 0.5 * av * bv)) 1e-17

/-- The algorithm of the amended claim: piecewise seed followed by exactly five
Halley iterations, no convergence check. -/
def log_lambertw_claim_alg (x : ℝ) : ℝ :=
  (halley_update_claim x)^[5] (seed_claim x)

/-! ## Berg entropy (`numpy_berg.py`, lines 45-72) -/

/-- Embeds `phis_ent` (lines 45-46): `-s(e^{-x/s} - 1)`. -/
def phis_ent (x s : ℝ) : ℝ :=
  -s * (Real.exp (-x / s) - 1)

/-- Embeds `phis_berg` (lines 49-50): `-s·log(1 - x/s)`. -/
def phis_berg (x s : ℝ) : ℝ :=
  -s * Real.log (1 - x / s)

/-- Embeds `dual_score_ent` (lines 53-59).  The Python signature defaults
`rho2=None` and replaces `None` by `rho`, embedded here as an `Option ℝ`
argument resolved with `getD`. -/
def dual_score_ent {n m : ℕ} (f : Fin n → ℝ) (g : Fin m → ℝ)
    (a : Fin n → ℝ) (b : Fin m → ℝ) (C : Fin n → Fin m → ℝ)
    (eps rho : ℝ) (rho2 : Option ℝ) : ℝ :=
  let rho2 := rho2.getD rho
  (∑ i, a i * phis_berg (f i) rho) + (∑ j, b j * phis_berg (g j) rho2)
    + ∑ i, ∑ j, a i * b j * phis_ent (C i j - f i - g j) eps

/-- Embeds `aprox_berg` (lines 62-64), on vectors:
`delta = rho/eps + log(rho/eps) - x/eps`, result `rho - eps·W(delta)` with
`W = log_lambertw`. -/
def aprox_berg {n : ℕ} (x : Fin n → ℝ) (eps rho : ℝ) : Fin n → ℝ :=
  let delta := fun i => rho / eps + Real.log (rho / eps) - x i / eps
  fun i => rho - eps * log_lambertwV delta i

/-- Embeds `grad_phis_berg` (lines 67-68): `1/(1 - x/s)`. -/
def grad_phis_berg (x s : ℝ) : ℝ :=
  1 / (1 - x / s)

/-- Embeds `hess_phis_berg` (lines 71-72): `1/(s(1 - x/s)²)`. -/
def hess_phis_berg (x s : ℝ) : ℝ :=
  1 / (s * (1 - x / s) ^ 2)

/-! ## Translation invariance (`numpy_berg.py`, lines 80-98) -/

/-- Embeds `grad_invariant` (lines 80-82):
`Σ a·grad_phis_berg(-f - t, rho) - Σ b·grad_phis_berg(-g + t, rho2)`. -/
def grad_invariant {n m : ℕ} (t : ℝ) (f : Fin n → ℝ) (g : Fin m → ℝ)
    (a : Fin n → ℝ) (b : Fin m → ℝ) (rho rho2 : ℝ) : ℝ :=
  (∑ i, a i * grad_phis_berg (-f i - t) rho)
    - ∑ j, b j * grad_phis_berg (-g j + t) rho2

/-- Embeds `hess_invariant` (lines 85-87):
`-Σ a·hess_phis_berg(-f - t, rho) - Σ b·hess_phis_berg(-g + t, rho2)`. -/
def hess_invariant {n m : ℕ} (t : ℝ) (f : Fin n → ℝ) (g : Fin m → ℝ)
    (a : Fin n → ℝ) (b : Fin m → ℝ) (rho rho2 : ℝ) : ℝ :=
  -(∑ i, a i * hess_phis_berg (-f i - t) rho)
    - ∑ j, b j * hess_phis_berg (-g j + t) rho2

/-- Embeds `rescale_berg` (lines 90-98): `rho2=None` resolves to `rho`; then
`nits` (Python default 10) raw Newton updates `t ← t - grad/hess` from
`init` (Python default 0), with no line search, convergence check, or
guard on `hess`. -/
def rescale_berg {n m : ℕ} (f : Fin n → ℝ) (g : Fin m → ℝ)
    (a : Fin n → ℝ) (b : Fin m → ℝ) (rho : ℝ) (rho2 : Option ℝ)
    (nits : ℕ) (init : ℝ) : ℝ :=
  let rho2 := rho2.getD rho
  (List.range nits).foldl
    (fun t _ => t - grad_invariant t f g a b rho rho2
      / hess_invariant t f g a b rho rho2) init

/-! ## Log-domain reductions (not in the sources)

`sinkx`/`sinky` are imported from `fastuot/numpy_sinkhorn.py`, a file the
repository sources do not include.  Every theorem below treats them as
opaque maps; only their types matter. -/

/-- Modelled from the spec: `sinkx` of `fastuot/numpy_sinkhorn.py` (absent
from the sources), §4.1 StableReduction — for every column `j` the
log-domain soft-minimum `-eps·log Σ_i a_i e^{(f_i - C_ij)/eps}` (the
max-subtraction stabilisation is the identity in exact arithmetic). -/
def sinkx {n m : ℕ} (C : Fin n → Fin m → ℝ) (f : Fin n → ℝ)
    (a : Fin n → ℝ) (eps : ℝ) : Fin m → ℝ :=
  fun j => -eps * Real.log (∑ i, a i * Real.exp ((f i - C i j) / eps))

/-- Modelled from the spec: `sinky` of `fastuot/numpy_sinkhorn.py` (absent
from the sources), §4.1 StableReduction — for every row `i` the log-domain
soft-minimum `-eps·log Σ_j b_j e^{(g_j - C_ij)/eps}`. -/
def sinky {n m : ℕ} (C : Fin n → Fin m → ℝ) (g : Fin m → ℝ)
    (b : Fin m → ℝ) (eps : ℝ) : Fin n → ℝ :=
  fun i => -eps * Real.log (∑ j, b j * Real.exp ((g j - C i j) / eps))

/-! ## Sinkhorn loops (`numpy_berg.py`, lines 106-162) -/

/-- Embeds `f_sinkhorn_loop` (lines 106-115): one alternating update
`g = -aprox_berg(-sinkx(C,f,a,eps), eps, rho2)` then
`f = -aprox_berg(-sinky(C,g,b,eps), eps, rho)`, returning `(f, g)`. -/
def f_sinkhorn_loop {n m : ℕ} (f : Fin n → ℝ) (a : Fin n → ℝ)
    (b : Fin m → ℝ) (C : Fin n → Fin m → ℝ) (eps rho : ℝ)
    (rho2 : Option ℝ) : (Fin n → ℝ) × (Fin m → ℝ) :=
  let rho2 := rho2.getD rho
  let g0 := sinkx C f a eps
  let g := fun j => -aprox_berg (fun k => -g0 k) eps rho2 j
  let f0 := sinky C g b eps
  let f1 := fun i => -aprox_berg (fun k => -f0 k) eps rho i
  (f1, g)

/-- Embeds `h_sinkhorn_loop` (lines 122-143): from `t = 0`, an inner loop of
`nits` (Python default 20) iterations alternating the shifted proximal
update of `g` with `rescale_berg` (passing this `nits` and `init = t`)
while `f` is fixed, a final recomputation of `g`, the symmetric inner loop
for `f` with `g` fixed, then `t = rescale_berg(f, g, a, b, rho, rho2)`
with Python defaults `nits=10, init=0`, returning `(f + t, g - t)`.
The Python local `g` (resp. `f`) is reassigned at the top of each inner
iteration before any use, so the loop-carried state is `t` alone. -/
def h_sinkhorn_loop {n m : ℕ} (f : Fin n → ℝ) (a : Fin n → ℝ)
    (b : Fin m → ℝ) (C : Fin n → Fin m → ℝ) (eps rho : ℝ)
    (rho2 : Option ℝ) (nits : ℕ) : (Fin n → ℝ) × (Fin m → ℝ) :=
  let rho2 := rho2.getD rho
  let gs := sinkx C f a eps
  let gUpd := fun (t : ℝ) j => -aprox_berg (fun k => -(gs k - t)) eps rho2 j + t
  let t1 := (List.range nits).foldl
    (fun t _ => rescale_berg f (gUpd t) a b rho (some rho2) nits t) 0
  let g := gUpd t1
  let fs := sinky C g b eps
  let fUpd := fun (t : ℝ) i => -aprox_berg (fun k => -(fs k + t)) eps rho i - t
  let t2 := (List.range nits).foldl
    (fun t _ => rescale_berg (fUpd t) g a b rho (some rho2) nits t) t1
  let f1 := fUpd t2
  let t3 := rescale_berg f1 g a b rho (some rho2) 10 0
  (fun i => f1 i + t3, fun j => g j - t3)

/-- Embeds `g_sinkhorn_loop` (lines 146-162): threads an explicit scalar shift
`t`; updates `g` with the incoming `t`, recomputes `t` by `rescale_berg`
(Python defaults `nits=10, init=0`), updates `f` with the recomputed `t`,
recomputes `t` once more and returns `(f, g, t)`.  The `g` argument is
overwritten before any use, exactly as in the Python body. -/
def g_sinkhorn_loop {n m : ℕ} (f : Fin n → ℝ) (g : Fin m → ℝ) (t : ℝ)
    (a : Fin n → ℝ) (b : Fin m → ℝ) (C : Fin n → Fin m → ℝ)
    (eps rho : ℝ) (rho2 : Option ℝ) :
    (Fin n → ℝ) × (Fin m → ℝ) × ℝ :=
  let rho2 := rho2.getD rho
  let g0 := sinkx C f a eps
  let g1 := fun j => -aprox_berg (fun k => -(g0 k - t)) eps rho2 j
  let t1 := rescale_berg f g1 a b rho (some rho2) 10 0
  let f0 := sinky C g1 b eps
  let f1 := fun i => -aprox_berg (fun k => -(f0 k + t1)) eps rho i
  let t2 := rescale_berg f1 g1 a b rho (some rho2) 10 0
  (f1, g1, t2)

/-! ### Claim-side loop definitions (for the refinement comparisons) -/

/-- Scalar form of the Berg proximal operator, used to word the loop
claims: `rho - eps·W(rho/eps + log(rho/eps) - x/eps)`. -/
def aprox_berg_claim (x eps rho : ℝ) : ℝ :=
  rho - eps * log_lambertw (rho / eps + Real.log (rho / eps) - x / eps)

/-- The F-loop as the claim words it: first
`g = -aprox_berg(-sinkx(C,f,a,eps), eps, rho2)`, then
`f' = -aprox_berg(-sinky(C,g,b,eps), eps, rho)`, returning `(f', g)` with
no translation correction. -/
def f_loop_claim {n m : ℕ} (f : Fin n → ℝ) (a : Fin n → ℝ)
    (b : Fin m → ℝ) (C : Fin n → Fin m → ℝ) (eps rho rho2 : ℝ) :
    (Fin n → ℝ) × (Fin m → ℝ) :=
  let g := fun j => -aprox_berg_claim (-sinkx C f a eps j) eps rho2
  (fun i => -aprox_berg_claim (-sinky C g b eps i) eps rho, g)

/-- The H-loop as the claim words it, with the inner loops written as
`Function.iterate` on the shift. -/
def h_loop_claim {n m : ℕ} (f : Fin n → ℝ) (a : Fin n → ℝ)
    (b : Fin m → ℝ) (C : Fin n → Fin m → ℝ) (eps rho rho2 : ℝ)
    (nits : ℕ) : (Fin n → ℝ) × (Fin m → ℝ) :=
  let gs := sinkx C f a eps
  let gOf := fun (t : ℝ) j => -aprox_berg_claim (-(gs j - t)) eps rho2 + t
  let t1 := (fun t => rescale_berg f (gOf t) a b rho (some rho2) nits t)^[nits] 0
  let g := gOf t1
  let fs := sinky C g b eps
  let fOf := fun (t : ℝ) i => -aprox_berg_claim (-(fs i + t)) eps rho - t
  let t2 := (fun t => rescale_berg (fOf t) g a b rho (some rho2) nits t)^[nits] t1
  let f1 := fOf t2
  let t3 := rescale_berg f1 g a b rho (some rho2) 10 0
  (fun i => f1 i + t3, fun j => g j - t3)

/-- The G-loop as the claim words it: update `g` with the incoming `t`,
recompute `t`, update `f` with the recomputed `t`, recompute `t` again —
exactly two rescale passes — and return the triple `(f, g, t)`. -/
def g_loop_claim {n m : ℕ} (f : Fin n → ℝ) (t : ℝ)
    (a : Fin n → ℝ) (b : Fin m → ℝ) (C : Fin n → Fin m → ℝ)
    (eps rho rho2 : ℝ) : (Fin n → ℝ) × (Fin m → ℝ) × ℝ :=
  let g := fun j => -aprox_berg_claim (-(sinkx C f a eps j - t)) eps rho2
  let t1 := rescale_berg f g a b rho (some rho2) 10 0
  let f1 := fun i => -aprox_berg_claim (-(sinky C g b eps i + t1)) eps rho
  (f1, g, rescale_berg f1 g a b rho (some rho2) 10 0)

end

/-! ## Helper lemmas -/

/-- A Python `for _ in range(n)` loop whose body ignores the counter is an
`n`-fold function iterate. -/
theorem foldl_range_eq_iterate {α : Type _} (f : α → α) :
    ∀ (n : ℕ) (a : α), (List.range n).foldl (fun x _ => f x) a = f^[n] a := by
  intro n
  induction n with
  | zero => intro a; rfl
  | succ k ih =>
    intro a
    rw [List.range_succ, List.foldl_append, ih, Function.iterate_succ_apply']
    rfl

/-! ## Claim theorems -/

/-- C1 (counterexample): the Halley residual stated by the claim is
`a(w) = w(log(w) + w - x)/(1 + w)`, but the residual the source uses,
`halley_a`, puts a `1e-17` guard inside the logarithm.  At `x = 0`,
`w = 1` the two differ: `log(1) = 0` while `log(1 + 1e-17) > 0`. -/
theorem halley_residual_cex : halley_a 0 1 ≠ halley_a_claim 0 1 := by
  have hl : 0 < Real.log (1 + 1e-17) := Real.log_pos (by norm_num)
  simp only [halley_a, halley_a_claim, Real.log_one]
  intro h
  norm_num at h
  linarith

/-- C1 (amended): `log_lambertw` is the piecewise seed (`x` for `x > 1`,
`e^x(1 - e^x)` for `x < -2`, the Padé(3,2) approximant of `e^x` on
`[-2, 1]`, zero entries floored to `1e-6`) followed by exactly five Halley
iterations with residual `a(w) = w(log(w + 1e-17) + w - x)/(1 + w)` —
rather than the claimed `w(log(w) + w - x)/(1 + w)` — curvature
`b(w) = -1/(w(1 + w))` and update `w ← max(w - a/(1 - 0.5ab), 1e-17)`;
consequently every entry of the result is `≥ 1e-17`. -/
theorem log_lambertw_amended_ok {n : ℕ} (x : Fin n → ℝ) :
    log_lambertwV x = (fun i => log_lambertw_claim_alg (x i))
      ∧ ∀ i, (1e-17 : ℝ) ≤ log_lambertwV x i := by
  constructor
  · funext i
    show log_lambertw (x i) = log_lambertw_claim_alg (x i)
    rw [log_lambertw, log_lambertw_claim_alg, foldl_range_eq_iterate]
    rfl
  · intro i
    show (1e-17 : ℝ) ≤ log_lambertw (x i)
    rw [log_lambertw, foldl_range_eq_iterate,
      show (5 : ℕ) = 4 + 1 from rfl, Function.iterate_succ_apply']
    exact le_max_right _ _

/-- C2: `aprox_berg(x, eps, rho)` is `rho - eps·W(rho/eps + log(rho/eps)
- x/eps)` with `W = log_lambertw`, elementwise: component `i` of the
result depends only on component `i` of `x`. -/
theorem aprox_berg_ok {n : ℕ} (x : Fin n → ℝ) (eps rho : ℝ) :
    (∀ i, aprox_berg x eps rho i
        = rho - eps * log_lambertw (rho / eps + Real.log (rho / eps) - x i / eps))
      ∧ ∀ (y : Fin n → ℝ) (i : Fin n), x i = y i →
          aprox_berg x eps rho i = aprox_berg y eps rho i := by
  refine ⟨fun i => rfl, fun y i h => ?_⟩
  simp only [aprox_berg, log_lambertwV, h]

/-- Witness for C2 at `x = ![0, 1]`, `y = ![0, 2]`, `eps = rho = 1`,
`i = 0`. -/
theorem aprox_berg_ok_witness :
    aprox_berg ![0, 1] 1 1 0
        = 1 - 1 * log_lambertw (1 / 1 + Real.log (1 / 1) - ![(0 : ℝ), 1] 0 / 1)
      ∧ aprox_berg ![0, 1] 1 1 0 = aprox_berg ![0, 2] 1 1 0 :=
  ⟨(aprox_berg_ok ![0, 1] 1 1).1 0,
   (aprox_berg_ok ![0, 1] 1 1).2 ![0, 2] 0 (by simp)⟩

/-- Lemma: `hess_invariant` is the derivative in `t` of `grad_invariant`, wherever
the Berg denominators do not vanish. -/
theorem hasDerivAt_grad_invariant {n m : ℕ} (f : Fin n → ℝ) (g : Fin m → ℝ)
    (a : Fin n → ℝ) (b : Fin m → ℝ) (rho rho2 t : ℝ)
    (hrho : rho ≠ 0) (hrho2 : rho2 ≠ 0)
    (hf : ∀ i, 1 - (-f i - t) / rho ≠ 0)
    (hg : ∀ j, 1 - (-g j + t) / rho2 ≠ 0) :
    HasDerivAt (fun s => grad_invariant s f g a b rho rho2)
      (hess_invariant t f g a b rho rho2) t := by
  have hsum1 : HasDerivAt (fun s => ∑ i, a i * grad_phis_berg (-f i - s) rho)
      (∑ i, -(a i * hess_phis_berg (-f i - t) rho)) t := by
    apply HasDerivAt.sum
    intro i _
    have hu : HasDerivAt (fun s : ℝ => 1 - (-f i - s) / rho) (1 / rho) t := by
      have h1 : HasDerivAt (fun s : ℝ => -f i - s) (-1) t :=
        (hasDerivAt_id t).const_sub (-f i)
      have h2 := (h1.div_const rho).const_sub 1
      convert h2 using 1
      ring
    have h3 := (hu.inv (hf i)).const_mul (a i)
    convert h3 using 1
    · funext s
      rw [grad_phis_berg, one_div]
    · rw [hess_phis_berg, one_div]
      field_simp
  have hsum2 : HasDerivAt (fun s => ∑ j, b j * grad_phis_berg (-g j + s) rho2)
      (∑ j, b j * hess_phis_berg (-g j + t) rho2) t := by
    apply HasDerivAt.sum
    intro j _
    have hu : HasDerivAt (fun s : ℝ => 1 - (-g j + s) / rho2) (-1 / rho2) t := by
      have h1 : HasDerivAt (fun s : ℝ => -g j + s) 1 t :=
        (hasDerivAt_id t).const_add (-g j)
      have h2 := (h1.div_const rho2).const_sub 1
      convert h2 using 1
      ring
    have h3 := (hu.inv (hg j)).const_mul (b j)
    convert h3 using 1
    · funext s
      rw [grad_phis_berg, one_div]
    · rw [hess_phis_berg, one_div]
      field_simp
  have hfinal := hsum1.sub hsum2
  have hval : (∑ i, -(a i * hess_phis_berg (-f i - t) rho))
        - ∑ j, b j * hess_phis_berg (-g j + t) rho2
      = hess_invariant t f g a b rho rho2 := by
    rw [hess_invariant, Finset.sum_neg_distrib]
  rw [hval] at hfinal
  exact hfinal

/-- C3: `rescale_berg` performs exactly `nits` raw Newton updates
`t ← t - grad/hess` from `init` (no line search, no convergence check, no
guard on `hess`), where `grad` is `grad_invariant`
`= Σ a/(1 - (-f - t)/rho) - Σ b/(1 - (-g + t)/rho2)` and `hess` is
`hess_invariant`, the `t`-derivative of `grad_invariant`. -/
theorem rescale_berg_ok {n m : ℕ} (f : Fin n → ℝ) (g : Fin m → ℝ)
    (a : Fin n → ℝ) (b : Fin m → ℝ) (rho rho2 : ℝ) (nits : ℕ) (init : ℝ) :
    rescale_berg f g a b rho (some rho2) nits init
        = (fun t => t - grad_invariant t f g a b rho rho2
            / hess_invariant t f g a b rho rho2)^[nits] init
      ∧ (∀ t, grad_invariant t f g a b rho rho2
          = (∑ i, a i * (1 / (1 - (-f i - t) / rho)))
            - ∑ j, b j * (1 / (1 - (-g j + t) / rho2)))
      ∧ ∀ t, rho ≠ 0 → rho2 ≠ 0 →
          (∀ i, 1 - (-f i - t) / rho ≠ 0) →
          (∀ j, 1 - (-g j + t) / rho2 ≠ 0) →
          HasDerivAt (fun s => grad_invariant s f g a b rho rho2)
            (hess_invariant t f g a b rho rho2) t :=
  ⟨foldl_range_eq_iterate _ nits init, fun _ => rfl,
   fun t h1 h2 h3 h4 => hasDerivAt_grad_invariant f g a b rho rho2 t h1 h2 h3 h4⟩

/-- Witness for C3 with `n = m = 1`, `f = g = 0`, `a = b = 1`,
`rho = rho2 = 1`, `nits = 2`, `init = 0`, derivative taken at `t = 0`. -/
theorem rescale_berg_ok_witness :
    rescale_berg (fun _ : Fin 1 => 0) (fun _ : Fin 1 => 0) (fun _ => 1)
        (fun _ => 1) 1 (some 1) 2 0
        = (fun t => t - grad_invariant t (fun _ : Fin 1 => 0)
            (fun _ : Fin 1 => 0) (fun _ => 1) (fun _ => 1) 1 1
            / hess_invariant t (fun _ : Fin 1 => 0) (fun _ : Fin 1 => 0)
              (fun _ => 1) (fun _ => 1) 1 1)^[2] 0
      ∧ HasDerivAt (fun s => grad_invariant s (fun _ : Fin 1 => 0)
          (fun _ : Fin 1 => 0) (fun _ => 1) (fun _ => 1) 1 1)
          (hess_invariant 0 (fun _ : Fin 1 => 0) (fun _ : Fin 1 => 0)
            (fun _ => 1) (fun _ => 1) 1 1) 0 :=
  ⟨(rescale_berg_ok (fun _ : Fin 1 => 0) (fun _ : Fin 1 => 0) (fun _ => 1)
      (fun _ => 1) 1 1 2 0).1,
   (rescale_berg_ok (fun _ : Fin 1 => 0) (fun _ : Fin 1 => 0) (fun _ => 1)
      (fun _ => 1) 1 1 2 0).2.2 0 (by norm_num) (by norm_num)
      (fun i => by norm_num) (fun j => by norm_num)⟩

/-- C4: `f_sinkhorn_loop` performs exactly one alternating Sinkhorn
update — `g = -aprox_berg(-sinkx(C,f,a,eps), eps, rho2)`, then
`f' = -aprox_berg(-sinky(C,g,b,eps), eps, rho)` — and returns `(f', g)`
with no translation correction applied. -/
theorem f_sinkhorn_loop_ok {n m : ℕ} (f : Fin n → ℝ) (a : Fin n → ℝ)
    (b : Fin m → ℝ) (C : Fin n → Fin m → ℝ) (eps rho rho2 : ℝ) :
    f_sinkhorn_loop f a b C eps rho (some rho2)
      = f_loop_claim f a b C eps rho rho2 := rfl

/-- C5: `h_sinkhorn_loop` runs an inner loop of exactly `nits` iterations
alternating the shifted Berg proximal update of `g` with recomputation of
the shift via `rescale_berg` while `f` is fixed, then a symmetric
`nits`-iteration inner loop updating `f` while `g` is fixed, then one
final `t = rescale_berg(f, g, a, b, rho, rho2)`, and returns
`(f + t, g - t)`. -/
theorem h_sinkhorn_loop_ok {n m : ℕ} (f : Fin n → ℝ) (a : Fin n → ℝ)
    (b : Fin m → ℝ) (C : Fin n → Fin m → ℝ) (eps rho rho2 : ℝ)
    (nits : ℕ) :
    h_sinkhorn_loop f a b C eps rho (some rho2) nits
      = h_loop_claim f a b C eps rho rho2 nits := by
  simp only [h_sinkhorn_loop, h_loop_claim, foldl_range_eq_iterate]
  rfl

/-- C6: `g_sinkhorn_loop` takes an extra scalar shift `t` and returns a
triple `(f, g, t)`: it updates `g` with the incoming `t`, recomputes `t`
via `rescale_berg`, updates `f` with the recomputed `t`, recomputes `t` a
second time before returning — exactly two rescale passes per call. -/
theorem g_sinkhorn_loop_ok {n m : ℕ} (f : Fin n → ℝ) (g : Fin m → ℝ)
    (t : ℝ) (a : Fin n → ℝ) (b : Fin m → ℝ) (C : Fin n → Fin m → ℝ)
    (eps rho rho2 : ℝ) :
    g_sinkhorn_loop f g t a b C eps rho (some rho2)
      = g_loop_claim f t a b C eps rho rho2 := rfl

/-- C7: translating `f → f + s`, `g → g - s` shifts the argument of the
invariant gradient: `grad_invariant(t, f+s, g-s) = grad_invariant(t+s, f,
g)`, so the stationarity target of the Berg rescaling is preserved up to
shifting `t` by `-s`. -/
theorem grad_invariant_translation {n m : ℕ} (s t : ℝ) (f : Fin n → ℝ)
    (g : Fin m → ℝ) (a : Fin n → ℝ) (b : Fin m → ℝ) (rho rho2 : ℝ) :
    grad_invariant t (fun i => f i + s) (fun j => g j - s) a b rho rho2
      = grad_invariant (t + s) f g a b rho rho2 := by
  simp only [grad_invariant]
  congr 1
  · exact Finset.sum_congr rfl fun i _ => by
      rw [show -(f i + s) - t = -f i - (t + s) by ring]
  · exact Finset.sum_congr rfl fun j _ => by
      rw [show -(g j - s) + t = -g j + (t + s) by ring]

/-- C8: the result of `g_sinkhorn_loop` does not depend on its `g`
argument — the incoming `g` is overwritten by the `sinkx`-based update
before any use. -/
theorem g_sinkhorn_loop_ignores_g {n m : ℕ} (f : Fin n → ℝ)
    (g1 g2 : Fin m → ℝ) (t : ℝ) (a : Fin n → ℝ) (b : Fin m → ℝ)
    (C : Fin n → Fin m → ℝ) (eps rho : ℝ) (rho2 : Option ℝ) :
    g_sinkhorn_loop f g1 t a b C eps rho rho2
      = g_sinkhorn_loop f g2 t a b C eps rho rho2 := rfl

/-- C9 (counterexample): `rho2` does have an implicit default — when the
argument is omitted (`none`), `rescale_berg` silently substitutes `rho`
for it.  Concretely, at `f = g = 1`, `a = b = 1`, `rho = 3`, one Newton
step from `0`: the omitted-`rho2` call equals the `rho2 = 3` call, while
an explicit `rho2 = 1` gives a different scalar, so the omitted parameter
was defaulted to `rho`. -/
theorem rho2_default_cex :
    rescale_berg (fun _ : Fin 1 => 1) (fun _ : Fin 1 => 1) (fun _ => 1)
        (fun _ => 1) 3 none 1 0
        = rescale_berg (fun _ : Fin 1 => 1) (fun _ : Fin 1 => 1)
          (fun _ => 1) (fun _ => 1) 3 (some 3) 1 0
      ∧ rescale_berg (fun _ : Fin 1 => 1) (fun _ : Fin 1 => 1) (fun _ => 1)
          (fun _ => 1) 3 none 1 0
        ≠ rescale_berg (fun _ : Fin 1 => 1) (fun _ : Fin 1 => 1)
          (fun _ => 1) (fun _ => 1) 3 (some 1) 1 0 := by
  constructor
  · rfl
  · simp only [rescale_berg, Option.getD, foldl_range_eq_iterate,
      Function.iterate_one, grad_invariant, hess_invariant, grad_phis_berg,
      hess_phis_berg, Fin.sum_univ_one]
    norm_num

/-- C9 (amended): `eps` and `rho` are required explicit inputs, but `rho2`
is optional in `dual_score_ent`, `rescale_berg`, `f_sinkhorn_loop`,
`h_sinkhorn_loop` and `g_sinkhorn_loop`: when omitted it implicitly
defaults to `rho` (besides the documented defaulted `nits` counts). -/
theorem rho2_default_amended :
    (∀ (n m : ℕ) (f : Fin n → ℝ) (g : Fin m → ℝ) (a : Fin n → ℝ)
        (b : Fin m → ℝ) (C : Fin n → Fin m → ℝ) (eps rho : ℝ),
        dual_score_ent f g a b C eps rho none
          = dual_score_ent f g a b C eps rho (some rho))
      ∧ (∀ (n m : ℕ) (f : Fin n → ℝ) (g : Fin m → ℝ) (a : Fin n → ℝ)
          (b : Fin m → ℝ) (rho : ℝ) (nits : ℕ) (init : ℝ),
          rescale_berg f g a b rho none nits init
            = rescale_berg f g a b rho (some rho) nits init)
      ∧ (∀ (n m : ℕ) (f : Fin n → ℝ) (a : Fin n → ℝ) (b : Fin m → ℝ)
          (C : Fin n → Fin m → ℝ) (eps rho : ℝ),
          f_sinkhorn_loop f a b C eps rho none
            = f_sinkhorn_loop f a b C eps rho (some rho))
      ∧ (∀ (n m : ℕ) (f : Fin n → ℝ) (a : Fin n → ℝ) (b : Fin m → ℝ)
          (C : Fin n → Fin m → ℝ) (eps rho : ℝ) (nits : ℕ),
          h_sinkhorn_loop f a b C eps rho none nits
            = h_sinkhorn_loop f a b C eps rho (some rho) nits)
      ∧ ∀ (n m : ℕ) (f : Fin n → ℝ) (g : Fin m → ℝ) (t : ℝ)
          (a : Fin n → ℝ) (b : Fin m → ℝ) (C : Fin n → Fin m → ℝ)
          (eps rho : ℝ),
          g_sinkhorn_loop f g t a b C eps rho none
            = g_sinkhorn_loop f g t a b C eps rho (some rho) :=
  ⟨fun _ _ _ _ _ _ _ _ _ => rfl, fun _ _ _ _ _ _ _ _ _ => rfl,
   fun _ _ _ _ _ _ _ _ => rfl, fun _ _ _ _ _ _ _ _ _ => rfl,
   fun _ _ _ _ _ _ _ _ _ _ => rfl⟩

end FastUOT
